import Mathlib

/-!
Verification of the South-East-Asian line-break core of crengine:
the script dispatcher (linebreak_sa.cpp) and the BiLSTM break engine
(lstmbe.cpp), shallowly embedded over an abstract ordered field with
the two transcendental activations taken as parameters.  Lists play
the role of the float buffers; reads past the end of a buffer (which
are undefined behaviour in the C source and never happen on
well-formed models) are modelled as reading 0.
-/

namespace CrLB

/-- Script classes of linebreak_sa.cpp (enum class SALang). -/
inductive SALang : Type
  | THAI
  | LAO
  | BURMESE
  | KHMER
  | UNK
deriving DecidableEq, Repr

open SALang

/-- classify_language from linebreak_sa.cpp: pure per-code-point
script classification by half-open intervals. -/
def classify_language (ch : ℕ) : SALang :=
  if 0x0E00 ≤ ch ∧ ch < 0x0E80 then THAI
  else if 0x0E80 ≤ ch ∧ ch < 0x0F00 then LAO
  else if 0x1000 ≤ ch ∧ ch < 0x10A0 then BURMESE
  else if 0x1780 ≤ ch ∧ ch < 0x1800 then KHMER
  else UNK

/-- BIES labels of lstmbe.cpp (typedef enum LSTMClass); in C they are
the integers 0..3 and the argmax result is compared against them. -/
def BEGIN : ℕ := 0

/-- LSTMClass INSIDE. -/
def INSIDE : ℕ := 1

/-- LSTMClass END. -/
def END : ℕ := 2

/-- LSTMClass SINGLE. -/
def SINGLE : ℕ := 3

variable {α : Type} [LinearOrderedField α]

/-- Reading element i of a 1-D buffer (Array1D::get); out-of-range
reads, undefined behaviour in C, are modelled as 0. -/
def getE (a : List α) (i : ℕ) : α := a.getD i 0

/-- Reading an n-element window of a buffer starting at 0, as done by
Array1D::assign (the destination length dictates the element count). -/
def readVec (n : ℕ) (a : List α) : List α :=
  (List.range n).map fun i => getE a i

/-- The inner loop of Array1D::addDotProduct: sum over j of
x[j] * M[j][i], for a row-major matrix M given as its list of rows. -/
def dotCol (x : List α) (M : List (List α)) (i : ℕ) : α :=
  ∑ j in Finset.range x.length, getE x j * getE (M.getD j []) i

/-- Array1D::addDotProduct: y[i] += sum_j x[j] * M[j][i]. -/
def addDotProduct (y x : List α) (M : List (List α)) : List α :=
  (List.range y.length).map fun i => getE y i + dotCol x M i

/-- Array1D::hadamardProduct: y[i] *= a[i]. -/
def hadamardProduct (y a : List α) : List α :=
  (List.range y.length).map fun i => getE y i * getE a i

/-- Array1D::addHadamardProduct: y[i] += a[i] * b[i]. -/
def addHadamardProduct (y a b : List α) : List α :=
  (List.range y.length).map fun i => getE y i + getE a i * getE b i

/-- Array1D::slice(off, size): the size elements starting at off.  In
compute() every slice lies inside the 4H-element gate buffer. -/
def slice (off size : ℕ) (y : List α) : List α :=
  (List.range size).map fun i => getE y (off + i)

variable (tanhF sigmoidF : α → α)

/-- Array1D::tanh(a): overwrite y with the elementwise tanh of a
(the length of the destination y dictates the element count). -/
def tanhAssign (y a : List α) : List α :=
  (List.range y.length).map fun i => tanhF (getE a i)

/-- Elementwise in-place tanh (Array1D::tanh()). -/
def tanhMap (y : List α) : List α :=
  (List.range y.length).map fun i => tanhF (getE y i)

/-- Elementwise in-place sigmoid (Array1D::sigmoid()). -/
def sigmoidMap (y : List α) : List α :=
  (List.range y.length).map fun i => sigmoidF (getE y i)

/-- Array1D::maxIndex inner loop: scan with current maximum mx, next
absolute position i and current best index best, updating only on a
strictly larger element. -/
def maxIndexAux : List α → α → ℕ → ℕ → ℕ
  | [], _, _, best => best
  | a :: rest, mx, i, best =>
      if mx < a then maxIndexAux rest a (i + 1) i
      else maxIndexAux rest mx (i + 1) best

/-- Array1D::maxIndex: index of the maximum element, first occurrence
winning; the C code reads data_[0] unconditionally, an empty buffer
being undefined behaviour (modelled as index 0). -/
def maxIndex : List α → ℕ
  | [] => 0
  | a :: rest => maxIndexAux rest a 1 0

/-- One LSTM timestep, the compute() function of lstmbe.cpp: build the
gate buffer ifco = b + x·W + h·U, apply sigmoid to the i and f lanes,
tanh to the candidate lane, sigmoid to the o lane, update the cell
state in place, then the hidden state from the updated cell state. -/
def compute (hunits : ℕ) (W U : List (List α)) (b x h c : List α) :
    List α × List α :=
  let ifco := addDotProduct (addDotProduct (readVec (4 * hunits) b) x W) h U
  let gi := sigmoidMap sigmoidF (slice 0 hunits ifco)
  let gf := sigmoidMap sigmoidF (slice hunits hunits ifco)
  let gc := tanhMap tanhF (slice (2 * hunits) hunits ifco)
  let go := sigmoidMap sigmoidF (slice (3 * hunits) hunits ifco)
  let c2 := addHadamardProduct (hadamardProduct c gf) gi gc
  let h2 := hadamardProduct (tanhAssign tanhF h c2) go
  (h2, c2)

/-- The nine carved views plus the code-point mapping held by an
engine (struct LSTMBreakEngine::LSTMData); matrices are lists of rows. -/
structure LSTMData (α : Type) where
  mapping : ℕ → ℕ
  fEmbedding : List (List α)
  fForwardW : List (List α)
  fForwardU : List (List α)
  fForwardB : List α
  fBackwardW : List (List α)
  fBackwardU : List (List α)
  fBackwardB : List α
  fOutputW : List (List α)
  fOutputB : List α

/-- The backward-LSTM loop of breakWord, iterating over the reversed
index list: each step continues from the row just written (the
hRow.assign of the source) and threads the single cell buffer c.
Returns the rows in processing order together with the final cell
state. -/
def backLoop (fd : LSTMData α) (hunits : ℕ) :
    List ℕ → List α → List α → List (List α) × List α
  | [], _, c => ([], c)
  | idx :: rest, hprev, c =>
      let hc := compute tanhF sigmoidF hunits fd.fBackwardW fd.fBackwardU
        fd.fBackwardB (fd.fEmbedding.getD idx []) hprev c
      let r := backLoop fd hunits rest hc.1 hc.2
      (hc.1 :: r.1, r.2)

/-- The fused forward-LSTM and output loop of breakWord: forwardRow
and the cell buffer are threaded, the stored backward row for the
position is copied into the second half of fbRow, the dense output
layer and the BIES argmax decide whether to fire the callback; the
emitted positions are collected in order. -/
def fwdLoop (fd : LSTMData α) (hunits startPos : ℕ) :
    List ℕ → List (List α) → List α → List α → ℕ → List ℕ
  | [], _, _, _, _ => []
  | idx :: rest, hB, h, c, i =>
      let hc := compute tanhF sigmoidF hunits fd.fForwardW fd.fForwardU
        fd.fForwardB (fd.fEmbedding.getD idx []) h c
      let fbRow := hc.1 ++ readVec hunits (hB.headD [])
      let logp := addDotProduct (readVec 4 fd.fOutputB) fbRow fd.fOutputW
      let current := maxIndex logp
      (if (current = BEGIN ∨ current = SINGLE) ∧ i ≠ 0
        then [startPos + i] else []) ++
      fwdLoop fd hunits startPos rest hB.tail hc.1 hc.2 (i + 1)

/-- LSTMBreakEngine::breakWord: the length guard, the vectorised
index lookup, the stored backward pass, the clear of the reused cell
buffer, and the fused forward and output pass.  The result pairs the
C return value with the list of positions passed to the callback. -/
def breakWord (fd : LSTMData α) (text : ℕ → ℕ) (startPos endPos : ℕ) :
    Int × List ℕ :=
  let input_seq_len := endPos - startPos
  if 2048 < input_seq_len then (-1, [])
  else
    let indices := (List.range input_seq_len).map fun i =>
      fd.mapping (text (startPos + i))
    let hunits := fd.fForwardU.length
    let bk := backLoop tanhF sigmoidF fd hunits indices.reverse
      (List.replicate hunits 0) (List.replicate hunits 0)
    let hBackward := bk.1.reverse
    let c := bk.2.map fun _ => (0 : α)
    (0, fwdLoop tanhF sigmoidF fd hunits startPos indices hBackward
      (List.replicate hunits 0) c 0)

/-- The walk of BreakSALine from linebreak_sa.cpp, recursing on the
number n of positions still to visit (pos + n is rangeEnd).  The state
is the current chunk start and script; on a script change a non-UNK
chunk is flushed to its engine, whose return value is discarded, and
after the walk a final non-empty non-UNK chunk is flushed.  The result
pairs the emitted break positions with the list of engine invocations
(script, chunk start, chunk end) in the order they are made. -/
def saLoop (eng : SALang → LSTMData α) (text : ℕ → ℕ) :
    ℕ → ℕ → ℕ → SALang → List ℕ × List (SALang × ℕ × ℕ)
  | 0, pos, chunkStart, chunkLang =>
      if chunkStart ≠ pos ∧ chunkLang ≠ UNK then
        ((breakWord tanhF sigmoidF (eng chunkLang) text chunkStart pos).2,
          [(chunkLang, chunkStart, pos)])
      else ([], [])
  | n + 1, pos, chunkStart, chunkLang =>
      let lang := classify_language (text pos)
      if lang ≠ chunkLang then
        let flushed :=
          if chunkLang ≠ UNK then
            (breakWord tanhF sigmoidF (eng chunkLang) text chunkStart pos).2
          else []
        let invoc :=
          if chunkLang ≠ UNK then [(chunkLang, chunkStart, pos)] else []
        let r := saLoop eng text n (pos + 1) pos lang
        (flushed ++ r.1, invoc ++ r.2)
      else saLoop eng text n (pos + 1) chunkStart chunkLang

/-- BreakSALine: run the dispatcher walk from rangeStart with an
initially empty UNK chunk; the source ignores every engine return
value and ends with return 0. -/
def BreakSALine (eng : SALang → LSTMData α) (text : ℕ → ℕ)
    (rangeStart rangeEnd : ℕ) : Int × List ℕ :=
  (0, (saLoop tanhF sigmoidF eng text (rangeEnd - rangeStart)
        rangeStart rangeStart UNK).1)

/-- The engine invocations a BreakSALine call makes, in order. -/
def saInvocations (eng : SALang → LSTMData α) (text : ℕ → ℕ)
    (rangeStart rangeEnd : ℕ) : List (SALang × ℕ × ℕ) :=
  (saLoop tanhF sigmoidF eng text (rangeEnd - rangeStart)
    rangeStart rangeStart UNK).2

/-- The maximal same-script chunks the dispatcher walk forms,
recorded at every script transition and after the walk, dropping only
the degenerate empty chunk that precedes the first position. -/
def saChunks (text : ℕ → ℕ) :
    ℕ → ℕ → ℕ → SALang → List (SALang × ℕ × ℕ)
  | 0, pos, chunkStart, chunkLang =>
      if chunkStart ≠ pos then [(chunkLang, chunkStart, pos)] else []
  | n + 1, pos, chunkStart, chunkLang =>
      let lang := classify_language (text pos)
      if lang ≠ chunkLang then
        (if chunkStart ≠ pos then [(chunkLang, chunkStart, pos)] else []) ++
          saChunks text n (pos + 1) pos lang
      else saChunks text n (pos + 1) chunkStart chunkLang

/-- The chunks of a full range. -/
def saChunksOf (text : ℕ → ℕ) (rangeStart rangeEnd : ℕ) :
    List (SALang × ℕ × ℕ) :=
  saChunks text (rangeEnd - rangeStart) rangeStart rangeStart UNK

/-- A chunk list partitions the half-open interval from s to e:
chunks are non-empty, consecutive, and jointly exhaust the interval. -/
def linked : ℕ → ℕ → List (SALang × ℕ × ℕ) → Prop
  | s, e, [] => s = e
  | s, e, c :: rest => c.2.1 = s ∧ c.2.1 < c.2.2 ∧ linked c.2.2 e rest

/-- Run a sequence of LSTM timesteps with fixed weights over a list of
embedding indices, threading hidden and cell state. -/
def runCell (hunits : ℕ) (W U : List (List α)) (b : List α)
    (emb : List (List α)) : List ℕ → List α → List α → List α × List α
  | [], h, c => (h, c)
  | idx :: rest, h, c =>
      let hc := compute tanhF sigmoidF hunits W U b (emb.getD idx []) h c
      runCell hunits W U b emb rest hc.1 hc.2

/-- The vectorised index list of a breakWord call. -/
def indicesOf (fd : LSTMData α) (text : ℕ → ℕ) (startPos endPos : ℕ) :
    List ℕ :=
  (List.range (endPos - startPos)).map fun i => fd.mapping (text (startPos + i))

/-- Forward hidden state aligned with position i: the forward LSTM run
from zero state over the first i + 1 indices. -/
def fwdStateAt (fd : LSTMData α) (hunits : ℕ) (idxs : List ℕ) (i : ℕ) :
    List α :=
  (runCell tanhF sigmoidF hunits fd.fForwardW fd.fForwardU fd.fForwardB
    fd.fEmbedding (idxs.take (i + 1)) (List.replicate hunits 0)
    (List.replicate hunits 0)).1

/-- Backward hidden state aligned with position i: the backward LSTM
run from zero state over the indices from the end down to position i. -/
def bwdStateAt (fd : LSTMData α) (hunits : ℕ) (idxs : List ℕ) (i : ℕ) :
    List α :=
  (runCell tanhF sigmoidF hunits fd.fBackwardW fd.fBackwardU fd.fBackwardB
    fd.fEmbedding (idxs.reverse.take (idxs.length - i))
    (List.replicate hunits 0) (List.replicate hunits 0)).1

/-- Per-position logits: output bias plus the concatenated forward and
backward hidden states through the dense output matrix. -/
def logitsAt (fd : LSTMData α) (hunits : ℕ) (idxs : List ℕ) (i : ℕ) :
    List α :=
  addDotProduct (readVec 4 fd.fOutputB)
    (fwdStateAt tanhF sigmoidF fd hunits idxs i ++
      readVec hunits (bwdStateAt tanhF sigmoidF fd hunits idxs i))
    fd.fOutputW

/-- Decoded BIES label of position i of a breakWord call. -/
def labelAt (fd : LSTMData α) (text : ℕ → ℕ) (startPos endPos i : ℕ) : ℕ :=
  maxIndex (logitsAt tanhF sigmoidF fd fd.fForwardU.length
    (indicesOf fd text startPos endPos) i)

/-- Decoded BIES label of position j of the fused forward loop when it
starts from forward state (h, c) with the stored backward rows hB. -/
def labelFromState (fd : LSTMData α) (hunits : ℕ) (h c : List α)
    (idxs : List ℕ) (hB : List (List α)) (j : ℕ) : ℕ :=
  maxIndex (addDotProduct (readVec 4 fd.fOutputB)
    ((runCell tanhF sigmoidF hunits fd.fForwardW fd.fForwardU fd.fForwardB
        fd.fEmbedding (idxs.take (j + 1)) h c).1 ++
      readVec hunits (hB.getD j [])) fd.fOutputW)

/-- Modelled from the spec: the breakWord variant using two separate
zero-initialised cell-state buffers, one per direction, instead of
re-zeroing the single shared buffer between the passes. -/
def breakWordTwoBuffers (fd : LSTMData α) (text : ℕ → ℕ)
    (startPos endPos : ℕ) : Int × List ℕ :=
  let input_seq_len := endPos - startPos
  if 2048 < input_seq_len then (-1, [])
  else
    let indices := (List.range input_seq_len).map fun i =>
      fd.mapping (text (startPos + i))
    let hunits := fd.fForwardU.length
    let bk := backLoop tanhF sigmoidF fd hunits indices.reverse
      (List.replicate hunits 0) (List.replicate hunits 0)
    let hBackward := bk.1.reverse
    (0, fwdLoop tanhF sigmoidF fd hunits startPos indices hBackward
      (List.replicate hunits 0) (List.replicate hunits 0) 0)

/-- Reference forget-gated LSTM, stated from the standard equations:
the pre-activation of gate lane m is b[m] + (x·W)[m] + (h·U)[m]. -/
def gatePre (W U : List (List α)) (b x h : List α) (m : ℕ) : α :=
  getE b m + dotCol x W m + dotCol h U m

/-- Reference cell-state update: c ⊙ f + i ⊙ c-tilde, with sigmoid on
the input and forget lanes and tanh on the candidate lane. -/
def lstmRefC (hunits : ℕ) (W U : List (List α)) (b x h c : List α) :
    List α :=
  (List.range hunits).map fun k =>
    getE c k * sigmoidF (gatePre W U b x h (hunits + k)) +
      sigmoidF (gatePre W U b x h k) *
        tanhF (gatePre W U b x h (2 * hunits + k))

/-- Reference hidden-state update: tanh of the updated cell state,
gated by the sigmoid output lane. -/
def lstmRefH (hunits : ℕ) (W U : List (List α)) (b x h c : List α) :
    List α :=
  (List.range hunits).map fun k =>
    tanhF (getE (lstmRefC tanhF sigmoidF hunits W U b x h c) k) *
      sigmoidF (gatePre W U b x h (3 * hunits + k))

/-- A tiny concrete well-formed model over ℚ (one character class,
embedding width 1, one hidden unit, all weights zero) used to
instantiate hypotheses at concrete inputs. -/
def zeroData : LSTMData ℚ where
  mapping := fun _ => 0
  fEmbedding := [[0]]
  fForwardW := [[0, 0, 0, 0]]
  fForwardU := [[0, 0, 0, 0]]
  fForwardB := [0, 0, 0, 0]
  fBackwardW := [[0, 0, 0, 0]]
  fBackwardU := [[0, 0, 0, 0]]
  fBackwardB := [0, 0, 0, 0]
  fOutputW := [[0, 0, 0, 0], [0, 0, 0, 0]]
  fOutputB := [0, 0, 0, 0]

/-- The text of the C1 counterexample: 2049 Thai code points followed
by Lao code points. -/
def cexText (p : ℕ) : ℕ := if p < 2049 then 0x0E01 else 0x0E81

/-! ### Basic pointwise lemmas about the buffer operations -/

theorem rangeMap_getD {β : Type} (f : ℕ → β) {n m : ℕ} (d : β) (h : m < n) :
    ((List.range n).map f).getD m d = f m := by
  rw [List.getD_eq_getElem?_getD, List.getElem?_map, List.getElem?_range h]
  rfl

theorem rangeMap_length {β : Type} (f : ℕ → β) (n : ℕ) :
    ((List.range n).map f).length = n := by simp

theorem readVec_length (n : ℕ) (a : List α) : (readVec n a).length = n := by
  simp [readVec]

theorem readVec_getD (n : ℕ) (a : List α) {m : ℕ} (h : m < n) :
    getE (readVec n a) m = getE a m := by
  unfold readVec getE
  exact rangeMap_getD _ _ h

theorem addDotProduct_length (y x : List α) (M : List (List α)) :
    (addDotProduct y x M).length = y.length := by simp [addDotProduct]

theorem addDotProduct_getD (y x : List α) (M : List (List α)) {m : ℕ}
    (h : m < y.length) :
    getE (addDotProduct y x M) m = getE y m + dotCol x M m := by
  unfold addDotProduct getE
  exact rangeMap_getD _ _ h

theorem hadamardProduct_length (y a : List α) :
    (hadamardProduct y a).length = y.length := by simp [hadamardProduct]

theorem hadamardProduct_getD (y a : List α) {m : ℕ} (h : m < y.length) :
    getE (hadamardProduct y a) m = getE y m * getE a m := by
  unfold hadamardProduct getE
  exact rangeMap_getD _ _ h

theorem addHadamardProduct_length (y a b : List α) :
    (addHadamardProduct y a b).length = y.length := by
  simp [addHadamardProduct]

theorem addHadamardProduct_getD (y a b : List α) {m : ℕ}
    (h : m < y.length) :
    getE (addHadamardProduct y a b) m = getE y m + getE a m * getE b m := by
  unfold addHadamardProduct getE
  exact rangeMap_getD _ _ h

theorem slice_getD (off size : ℕ) (y : List α) {m : ℕ} (h : m < size) :
    getE (slice off size y) m = getE y (off + m) := by
  unfold slice getE
  exact rangeMap_getD _ _ h

theorem tanhAssign_length (y a : List α) :
    (tanhAssign tanhF y a).length = y.length := by simp [tanhAssign]

theorem tanhAssign_getD (y a : List α) {m : ℕ} (h : m < y.length) :
    getE (tanhAssign tanhF y a) m = tanhF (getE a m) := by
  unfold tanhAssign getE
  exact rangeMap_getD _ _ h

theorem sigmoidMap_getD (y : List α) {m : ℕ} (h : m < y.length) :
    getE (sigmoidMap sigmoidF y) m = sigmoidF (getE y m) := by
  unfold sigmoidMap getE
  exact rangeMap_getD _ _ h

theorem tanhMap_getD (y : List α) {m : ℕ} (h : m < y.length) :
    getE (tanhMap tanhF y) m = tanhF (getE y m) := by
  unfold tanhMap getE
  exact rangeMap_getD _ _ h

/-! ### maxIndex: first-occurrence argmax -/

/-- Invariant of the maxIndexAux scan, phrased on the remaining list:
the result is the incoming best index or an absolute position inside
the list; the value it denotes dominates the list and the running
maximum, strictly so for elements before a champion found inside. -/
theorem maxIndexAux_spec (l : List α) :
    ∀ (mx : α) (i best : ℕ), best < i →
      (maxIndexAux l mx i best = best ∨
        (i ≤ maxIndexAux l mx i best ∧
          maxIndexAux l mx i best < i + l.length)) ∧
      (∀ k, k < l.length →
        getE l k ≤ (if maxIndexAux l mx i best < i then mx
          else getE l (maxIndexAux l mx i best - i))) ∧
      (mx ≤ (if maxIndexAux l mx i best < i then mx
        else getE l (maxIndexAux l mx i best - i))) ∧
      (i ≤ maxIndexAux l mx i best →
        mx < getE l (maxIndexAux l mx i best - i) ∧
        ∀ k, k < maxIndexAux l mx i best - i →
          getE l k < getE l (maxIndexAux l mx i best - i)) := by
  induction l with
  | nil =>
      intro mx i best hbi
      have hred : maxIndexAux ([] : List α) mx i best = best := rfl
      rw [hred]
      refine ⟨Or.inl rfl, ?_, ?_, ?_⟩
      · intro k hk
        exact absurd hk (by simp)
      · simp [hbi]
      · intro hle
        omega
  | cons a rest ih =>
      intro mx i best hbi
      by_cases hcase : mx < a
      · have hred : maxIndexAux (a :: rest) mx i best =
            maxIndexAux rest a (i + 1) i := by
          simp [maxIndexAux, hcase]
        rw [hred]
        obtain ⟨hA, hB, hC, hD⟩ := ih a (i + 1) i (Nat.lt_succ_self i)
        generalize hgen : maxIndexAux rest a (i + 1) i = r at hA hB hC hD ⊢
        have hri : i ≤ r := by rcases hA with h | h <;> omega
        have hnotlt : ¬ r < i := by omega
        rcases hA with hAeq | hAin
        · -- the head a is the champion
          have hv : getE (a :: rest) (r - i) = a := by
            rw [hAeq]
            simp [getE]
          have hBv : ∀ k, k < rest.length → getE rest k ≤ a := by
            intro k hk
            have := hB k hk
            rwa [if_pos (by omega : r < i + 1)] at this
          refine ⟨Or.inr ⟨hri, by simp only [List.length_cons]; omega⟩,
            ?_, ?_, ?_⟩
          · intro k hk
            rw [if_neg hnotlt, hv]
            cases k with
            | zero => simp [getE]
            | succ k =>
                have hk' : k < rest.length := by
                  simpa [List.length_cons] using hk
                simpa [getE] using hBv k hk'
          · rw [if_neg hnotlt, hv]
            exact le_of_lt hcase
          · intro _
            rw [hv]
            refine ⟨hcase, ?_⟩
            intro k hk
            omega
        · -- the champion lies inside rest
          have hii : i + 1 ≤ r := hAin.1
          have hni1 : ¬ r < i + 1 := by omega
          have hvv : getE (a :: rest) (r - i) = getE rest (r - (i + 1)) := by
            have h2 : r - i = (r - (i + 1)) + 1 := by omega
            rw [h2]
            simp [getE]
          have hBi : ∀ k, k < rest.length →
              getE rest k ≤ getE rest (r - (i + 1)) := by
            intro k hk
            have := hB k hk
            rwa [if_neg hni1] at this
          obtain ⟨haD, hstrict⟩ := hD hii
          refine ⟨Or.inr ⟨hri, by simp only [List.length_cons]; omega⟩,
            ?_, ?_, ?_⟩
          · intro k hk
            rw [if_neg hnotlt, hvv]
            cases k with
            | zero => simpa [getE] using le_of_lt haD
            | succ k =>
                have hk' : k < rest.length := by
                  simpa [List.length_cons] using hk
                simpa [getE] using hBi k hk'
          · rw [if_neg hnotlt, hvv]
            exact le_of_lt (lt_trans hcase haD)
          · intro _
            rw [hvv]
            refine ⟨lt_trans hcase haD, ?_⟩
            intro k hk
            cases k with
            | zero => simpa [getE] using haD
            | succ k =>
                have hk' : k < r - (i + 1) := by omega
                simpa [getE] using hstrict k hk'
      · have hred : maxIndexAux (a :: rest) mx i best =
            maxIndexAux rest mx (i + 1) best := by
          simp [maxIndexAux, hcase]
        rw [hred]
        have hale : a ≤ mx := le_of_not_lt hcase
        obtain ⟨hA, hB, hC, hD⟩ := ih mx (i + 1) best (by omega)
        generalize hgen : maxIndexAux rest mx (i + 1) best = r at hA hB hC hD ⊢
        rcases hA with hAeq | hAin
        · -- no update anywhere: the incoming best survives
          have hlt : r < i := by omega
          have hni1 : r < i + 1 := by omega
          have hBv : ∀ k, k < rest.length → getE rest k ≤ mx := by
            intro k hk
            have := hB k hk
            rwa [if_pos hni1] at this
          refine ⟨Or.inl hAeq, ?_, ?_, ?_⟩
          · intro k hk
            rw [if_pos hlt]
            cases k with
            | zero => simpa [getE] using hale
            | succ k =>
                have hk' : k < rest.length := by
                  simpa [List.length_cons] using hk
                simpa [getE] using hBv k hk'
          · rw [if_pos hlt]
          · intro hle
            omega
        · -- the champion lies inside rest
          have hii : i + 1 ≤ r := hAin.1
          have hni1 : ¬ r < i + 1 := by omega
          have hnotlt : ¬ r < i := by omega
          have hvv : getE (a :: rest) (r - i) = getE rest (r - (i + 1)) := by
            have h2 : r - i = (r - (i + 1)) + 1 := by omega
            rw [h2]
            simp [getE]
          have hBi : ∀ k, k < rest.length →
              getE rest k ≤ getE rest (r - (i + 1)) := by
            intro k hk
            have := hB k hk
            rwa [if_neg hni1] at this
          obtain ⟨hmxD, hstrict⟩ := hD hii
          refine ⟨Or.inr ⟨by omega, by simp only [List.length_cons]; omega⟩,
            ?_, ?_, ?_⟩
          · intro k hk
            rw [if_neg hnotlt, hvv]
            cases k with
            | zero => simpa [getE] using le_of_lt (lt_of_le_of_lt hale hmxD)
            | succ k =>
                have hk' : k < rest.length := by
                  simpa [List.length_cons] using hk
                simpa [getE] using hBi k hk'
          · rw [if_neg hnotlt, hvv]
            exact le_of_lt hmxD
          · intro _
            rw [hvv]
            refine ⟨hmxD, ?_⟩
            intro k hk
            cases k with
            | zero => simpa [getE] using lt_of_le_of_lt hale hmxD
            | succ k =>
                have hk' : k < r - (i + 1) := by omega
                simpa [getE] using hstrict k hk'

/-- maxIndex of a non-empty list is in range, dominates every element,
and strictly dominates every earlier element (lowest index wins). -/
theorem maxIndex_spec (l : List α) (hne : l ≠ []) :
    maxIndex l < l.length ∧
    (∀ k, k < l.length → getE l k ≤ getE l (maxIndex l)) ∧
    (∀ k, k < maxIndex l → getE l k < getE l (maxIndex l)) := by
  match l, hne with
  | a :: rest, _ =>
    obtain ⟨hA, hB, hC, hD⟩ := maxIndexAux_spec rest a 1 0 Nat.zero_lt_one
    have hmx : maxIndex (a :: rest) = maxIndexAux rest a 1 0 := rfl
    rw [hmx]
    generalize hgen : maxIndexAux rest a 1 0 = r at hA hB hC hD ⊢
    rcases hA with hAeq | hAin
    · -- the head is the champion
      have hv : getE (a :: rest) r = a := by
        rw [hAeq]
        simp [getE]
      have hBv : ∀ k, k < rest.length → getE rest k ≤ a := by
        intro k hk
        have := hB k hk
        rwa [if_pos (by omega : r < 1)] at this
      refine ⟨by simp only [List.length_cons]; omega, ?_, ?_⟩
      · intro k hk
        rw [hv]
        cases k with
        | zero => simp [getE]
        | succ k =>
            have hk' : k < rest.length := by
              simpa [List.length_cons] using hk
            simpa [getE] using hBv k hk'
      · intro k hk
        omega
    · -- the champion lies inside rest
      have hii : 1 ≤ r := hAin.1
      have hni1 : ¬ r < 1 := by omega
      have hvv : getE (a :: rest) r = getE rest (r - 1) := by
        have h2 : r = (r - 1) + 1 := by omega
        conv_lhs => rw [h2]
        simp [getE]
      have hBi : ∀ k, k < rest.length →
          getE rest k ≤ getE rest (r - 1) := by
        intro k hk
        have := hB k hk
        rwa [if_neg hni1] at this
      obtain ⟨haD, hstrict⟩ := hD hii
      refine ⟨by simp only [List.length_cons]; omega, ?_, ?_⟩
      · intro k hk
        rw [hvv]
        cases k with
        | zero => simpa [getE] using le_of_lt haD
        | succ k =>
            have hk' : k < rest.length := by
              simpa [List.length_cons] using hk
            simpa [getE] using hBi k hk'
      · intro k hk
        rw [hvv]
        cases k with
        | zero => simpa [getE] using haD
        | succ k =>
            have hk' : k < r - 1 := by omega
            simpa [getE] using hstrict k hk'
/-! ### compute: lengths and pointwise values -/

theorem list_ext_getE {l₁ l₂ : List α} (hlen : l₁.length = l₂.length)
    (h : ∀ k, k < l₁.length → getE l₁ k = getE l₂ k) : l₁ = l₂ := by
  refine List.ext_getElem hlen ?_
  intro n h₁ h₂
  have := h n h₁
  unfold getE at this
  rwa [List.getD_eq_getElem?_getD, List.getD_eq_getElem?_getD,
    List.getElem?_eq_getElem h₁, List.getElem?_eq_getElem h₂] at this

theorem getE_replicate_zero (n k : ℕ) : getE (List.replicate n (0 : α)) k = 0 := by
  unfold getE
  rcases lt_or_le k n with h | h
  · rw [List.getD_eq_getElem?_getD,
      List.getElem?_eq_getElem (by simpa using h)]
    simp
  · rw [List.getD_eq_getElem?_getD, List.getElem?_eq_none (by simpa using h)]
    rfl

theorem slice_length (off size : ℕ) (y : List α) :
    (slice off size y).length = size := by simp [slice]

theorem compute_fst_length (hunits : ℕ) (W U : List (List α))
    (b x h c : List α) :
    (compute tanhF sigmoidF hunits W U b x h c).1.length = h.length := by
  simp [compute, hadamardProduct, tanhAssign]

theorem compute_snd_length (hunits : ℕ) (W U : List (List α))
    (b x h c : List α) :
    (compute tanhF sigmoidF hunits W U b x h c).2.length = c.length := by
  simp [compute, addHadamardProduct, hadamardProduct]

theorem compute_ifco_getE (hunits : ℕ) (W U : List (List α))
    (b x h : List α) {m : ℕ} (hm : m < 4 * hunits) :
    getE (addDotProduct (addDotProduct (readVec (4 * hunits) b) x W) h U) m =
      gatePre W U b x h m := by
  have h1 : m < (addDotProduct (readVec (4 * hunits) b) x W).length := by
    rw [addDotProduct_length, readVec_length]
    exact hm
  have h2 : m < (readVec (4 * hunits) (b : List α)).length := by
    rw [readVec_length]
    exact hm
  rw [addDotProduct_getD _ _ _ h1, addDotProduct_getD _ _ _ h2,
    readVec_getD _ _ hm, gatePre]

theorem compute_snd_getE (hunits : ℕ) (W U : List (List α))
    (b x h c : List α) {k : ℕ} (hk : k < c.length) (hkh : k < hunits) :
    getE (compute tanhF sigmoidF hunits W U b x h c).2 k =
      getE c k * sigmoidF (gatePre W U b x h (hunits + k)) +
        sigmoidF (gatePre W U b x h k) *
          tanhF (gatePre W U b x h (2 * hunits + k)) := by
  unfold compute
  simp only
  have hifco : ∀ m, m < 4 * hunits →
      getE (addDotProduct (addDotProduct (readVec (4 * hunits) b) x W) h U) m
        = gatePre W U b x h m :=
    fun m hm => compute_ifco_getE hunits W U b x h hm
  have hk1 : k < (hadamardProduct c
      (sigmoidMap sigmoidF (slice hunits hunits
        (addDotProduct (addDotProduct (readVec (4 * hunits) b) x W) h U)))).length := by
    rw [hadamardProduct_length]
    exact hk
  rw [addHadamardProduct_getD _ _ _ hk1, hadamardProduct_getD _ _ hk]
  have hsl : ∀ off, (sigmoidMap sigmoidF (slice off hunits
      (addDotProduct (addDotProduct (readVec (4 * hunits) b) x W) h U))).length
        = hunits := by
    intro off
    simp [sigmoidMap, slice_length]
  have hslt : (tanhMap tanhF (slice (2 * hunits) hunits
      (addDotProduct (addDotProduct (readVec (4 * hunits) b) x W) h U))).length
        = hunits := by
    simp [tanhMap, slice_length]
  rw [sigmoidMap_getD _ _ (by rw [slice_length]; exact hkh),
    sigmoidMap_getD _ _ (by rw [slice_length]; exact hkh),
    tanhMap_getD _ _ (by rw [slice_length]; exact hkh),
    slice_getD _ _ _ hkh, slice_getD _ _ _ hkh, slice_getD _ _ _ hkh,
    hifco (hunits + k) (by omega), hifco (0 + k) (by omega),
    hifco (2 * hunits + k) (by omega)]
  rw [Nat.zero_add]

theorem compute_fst_getE (hunits : ℕ) (W U : List (List α))
    (b x h c : List α) {k : ℕ} (hk : k < h.length) (hkh : k < hunits) :
    getE (compute tanhF sigmoidF hunits W U b x h c).1 k =
      tanhF (getE (compute tanhF sigmoidF hunits W U b x h c).2 k) *
        sigmoidF (gatePre W U b x h (3 * hunits + k)) := by
  conv_lhs => rw [compute]
  simp only
  have hk1 : k < (tanhAssign tanhF h
      (addHadamardProduct (hadamardProduct c (sigmoidMap sigmoidF
        (slice hunits hunits (addDotProduct (addDotProduct
          (readVec (4 * hunits) b) x W) h U))))
        (sigmoidMap sigmoidF (slice 0 hunits (addDotProduct (addDotProduct
          (readVec (4 * hunits) b) x W) h U)))
        (tanhMap tanhF (slice (2 * hunits) hunits (addDotProduct
          (addDotProduct (readVec (4 * hunits) b) x W) h U))))).length := by
    rw [tanhAssign_length]
    exact hk
  rw [hadamardProduct_getD _ _ hk1, tanhAssign_getD _ _ _ hk,
    sigmoidMap_getD _ _ (by rw [slice_length]; exact hkh),
    slice_getD _ _ _ hkh,
    compute_ifco_getE hunits W U b x h (by omega : 3 * hunits + k < 4 * hunits)]
  rfl

/-- compute agrees with the reference forget-gated LSTM equations. -/
theorem compute_eq_lstmRef (hunits : ℕ) (W U : List (List α))
    (b x h c : List α) (hh : h.length = hunits) (hc : c.length = hunits) :
    compute tanhF sigmoidF hunits W U b x h c =
      (lstmRefH tanhF sigmoidF hunits W U b x h c,
        lstmRefC tanhF sigmoidF hunits W U b x h c) := by
  have hsnd : (compute tanhF sigmoidF hunits W U b x h c).2 =
      lstmRefC tanhF sigmoidF hunits W U b x h c := by
    refine list_ext_getE ?_ ?_
    · rw [compute_snd_length, hc, lstmRefC, rangeMap_length]
    · intro k hk
      rw [compute_snd_length, hc] at hk
      rw [compute_snd_getE tanhF sigmoidF hunits W U b x h c
        (by rw [hc]; exact hk) hk]
      unfold lstmRefC getE
      rw [rangeMap_getD _ _ hk]
  have hfst : (compute tanhF sigmoidF hunits W U b x h c).1 =
      lstmRefH tanhF sigmoidF hunits W U b x h c := by
    refine list_ext_getE ?_ ?_
    · rw [compute_fst_length, hh, lstmRefH, rangeMap_length]
    · intro k hk
      rw [compute_fst_length, hh] at hk
      rw [compute_fst_getE tanhF sigmoidF hunits W U b x h c
        (by rw [hh]; exact hk) hk, hsnd]
      unfold lstmRefH
      conv_rhs => rw [getE, rangeMap_getD _ _ hk]
  calc compute tanhF sigmoidF hunits W U b x h c
      = ((compute tanhF sigmoidF hunits W U b x h c).1,
          (compute tanhF sigmoidF hunits W U b x h c).2) := rfl
    _ = _ := by rw [hfst, hsnd]

/-! ### backLoop, fwdLoop and breakWord structure -/

theorem headD_eq_getD {β : Type} (l : List β) (d : β) :
    l.headD d = l.getD 0 d := by cases l <;> rfl

theorem tail_getD {β : Type} (l : List β) (j : ℕ) (d : β) :
    l.tail.getD j d = l.getD (j + 1) d := by cases l <;> rfl

theorem getD_reverse {β : Type} (l : List β) {i : ℕ} (d : β)
    (h : i < l.length) :
    l.reverse.getD i d = l.getD (l.length - 1 - i) d := by
  rw [List.getD_eq_getElem?_getD, List.getD_eq_getElem?_getD,
    List.getElem?_reverse h]

theorem backLoop_fst_length (fd : LSTMData α) (hunits : ℕ) :
    ∀ (l : List ℕ) (h c : List α),
      (backLoop tanhF sigmoidF fd hunits l h c).1.length = l.length := by
  intro l
  induction l with
  | nil => intro h c; rfl
  | cons idx rest ih =>
      intro h c
      simp only [backLoop, List.length_cons]
      rw [ih]

theorem backLoop_snd_length (fd : LSTMData α) (hunits : ℕ) :
    ∀ (l : List ℕ) (h c : List α),
      (backLoop tanhF sigmoidF fd hunits l h c).2.length = c.length := by
  intro l
  induction l with
  | nil => intro h c; rfl
  | cons idx rest ih =>
      intro h c
      simp only [backLoop]
      rw [ih, compute_snd_length]

theorem backLoop_fst_getD (fd : LSTMData α) (hunits : ℕ) :
    ∀ (l : List ℕ) (h c : List α) (j : ℕ), j < l.length →
      (backLoop tanhF sigmoidF fd hunits l h c).1.getD j [] =
        (runCell tanhF sigmoidF hunits fd.fBackwardW fd.fBackwardU
          fd.fBackwardB fd.fEmbedding (l.take (j + 1)) h c).1 := by
  intro l
  induction l with
  | nil =>
      intro h c j hj
      exact absurd hj (by simp)
  | cons idx rest ih =>
      intro h c j hj
      cases j with
      | zero =>
          simp only [backLoop, List.take_succ_cons, List.take_zero, runCell,
            List.getD_cons_zero]
      | succ j =>
          have hj' : j < rest.length := by
            simpa [List.length_cons] using hj
          simp only [backLoop, List.take_succ_cons, runCell,
            List.getD_cons_succ]
          exact ih _ _ j hj'

theorem breakWord_of_le (fd : LSTMData α) (text : ℕ → ℕ) (s e : ℕ)
    (hL : e - s ≤ 2048) :
    breakWord tanhF sigmoidF fd text s e =
      (0, fwdLoop tanhF sigmoidF fd fd.fForwardU.length s
        (indicesOf fd text s e)
        (backLoop tanhF sigmoidF fd fd.fForwardU.length
          (indicesOf fd text s e).reverse
          (List.replicate fd.fForwardU.length 0)
          (List.replicate fd.fForwardU.length 0)).1.reverse
        (List.replicate fd.fForwardU.length 0)
        ((backLoop tanhF sigmoidF fd fd.fForwardU.length
          (indicesOf fd text s e).reverse
          (List.replicate fd.fForwardU.length 0)
          (List.replicate fd.fForwardU.length 0)).2.map fun _ => (0 : α))
        0) := by
  unfold breakWord
  rw [if_neg (by omega)]
  rfl

theorem breakWord_of_gt (fd : LSTMData α) (text : ℕ → ℕ) (s e : ℕ)
    (hL : 2048 < e - s) :
    breakWord tanhF sigmoidF fd text s e = (-1, []) := by
  unfold breakWord
  rw [if_pos hL]

/-- The cleared reused cell buffer equals a fresh zero buffer: the
backward pass preserves the buffer length. -/
theorem backLoop_clear_eq_fresh (fd : LSTMData α) (hunits : ℕ)
    (l : List ℕ) :
    ((backLoop tanhF sigmoidF fd hunits l (List.replicate hunits 0)
        (List.replicate hunits 0)).2.map fun _ => (0 : α)) =
      List.replicate hunits (0 : α) := by
  have hlen : (backLoop tanhF sigmoidF fd hunits l
      (List.replicate hunits 0) (List.replicate hunits 0)).2.length
        = hunits := by
    rw [backLoop_snd_length, List.length_replicate]
  rw [List.map_const']
  rw [hlen]

/-- The fused forward loop emits exactly the positions, beyond the
chunk start, whose decoded label is BEGIN or SINGLE. -/
theorem fwdLoop_spec (fd : LSTMData α) (hunits s : ℕ) :
    ∀ (idxs : List ℕ) (hB : List (List α)) (h c : List α) (i0 : ℕ),
      fwdLoop tanhF sigmoidF fd hunits s idxs hB h c i0 =
        ((List.range idxs.length).filter fun j =>
          decide ((labelFromState tanhF sigmoidF fd hunits h c idxs hB j
              = BEGIN ∨
            labelFromState tanhF sigmoidF fd hunits h c idxs hB j
              = SINGLE) ∧ i0 + j ≠ 0)).map fun j => s + (i0 + j) := by
  intro idxs
  induction idxs with
  | nil =>
      intro hB h c i0
      rfl
  | cons idx rest ih =>
      intro hB h c i0
      have hlabel0 : labelFromState tanhF sigmoidF fd hunits h c
          (idx :: rest) hB 0 =
          maxIndex (addDotProduct (readVec 4 fd.fOutputB)
            ((compute tanhF sigmoidF hunits fd.fForwardW fd.fForwardU
              fd.fForwardB (fd.fEmbedding.getD idx []) h c).1 ++
              readVec hunits (hB.headD [])) fd.fOutputW) := by
        unfold labelFromState
        rw [headD_eq_getD]
        rfl
      have hlabelS : ∀ j, labelFromState tanhF sigmoidF fd hunits h c
          (idx :: rest) hB (j + 1) =
          labelFromState tanhF sigmoidF fd hunits
            (compute tanhF sigmoidF hunits fd.fForwardW fd.fForwardU
              fd.fForwardB (fd.fEmbedding.getD idx []) h c).1
            (compute tanhF sigmoidF hunits fd.fForwardW fd.fForwardU
              fd.fForwardB (fd.fEmbedding.getD idx []) h c).2
            rest hB.tail j := by
        intro j
        unfold labelFromState
        rw [tail_getD]
        rfl
      rw [List.length_cons, List.range_succ_eq_map, List.filter_cons]
      simp only [decide_eq_true_eq, Nat.add_zero, hlabel0]
      simp only [fwdLoop]
      rw [ih hB.tail _ _ (i0 + 1)]
      have htail :
          List.map (fun j => s + (i0 + 1 + j))
            (List.filter (fun j =>
              decide ((labelFromState tanhF sigmoidF fd hunits
                  (compute tanhF sigmoidF hunits fd.fForwardW fd.fForwardU
                    fd.fForwardB (fd.fEmbedding.getD idx []) h c).1
                  (compute tanhF sigmoidF hunits fd.fForwardW fd.fForwardU
                    fd.fForwardB (fd.fEmbedding.getD idx []) h c).2
                  rest hB.tail j = BEGIN ∨
                labelFromState tanhF sigmoidF fd hunits
                  (compute tanhF sigmoidF hunits fd.fForwardW fd.fForwardU
                    fd.fForwardB (fd.fEmbedding.getD idx []) h c).1
                  (compute tanhF sigmoidF hunits fd.fForwardW fd.fForwardU
                    fd.fForwardB (fd.fEmbedding.getD idx []) h c).2
                  rest hB.tail j = SINGLE) ∧ i0 + 1 + j ≠ 0))
              (List.range rest.length)) =
          List.map (fun j => s + (i0 + j))
            (List.map Nat.succ (List.filter ((fun j =>
              decide ((labelFromState tanhF sigmoidF fd hunits h c
                  (idx :: rest) hB j = BEGIN ∨
                labelFromState tanhF sigmoidF fd hunits h c
                  (idx :: rest) hB j = SINGLE) ∧ i0 + j ≠ 0)) ∘ Nat.succ)
              (List.range rest.length))) := by
        rw [List.map_map]
        have hfil : List.filter ((fun j =>
            decide ((labelFromState tanhF sigmoidF fd hunits h c
                (idx :: rest) hB j = BEGIN ∨
              labelFromState tanhF sigmoidF fd hunits h c
                (idx :: rest) hB j = SINGLE) ∧ i0 + j ≠ 0)) ∘ Nat.succ)
            (List.range rest.length) =
            List.filter (fun j =>
              decide ((labelFromState tanhF sigmoidF fd hunits
                  (compute tanhF sigmoidF hunits fd.fForwardW fd.fForwardU
                    fd.fForwardB (fd.fEmbedding.getD idx []) h c).1
                  (compute tanhF sigmoidF hunits fd.fForwardW fd.fForwardU
                    fd.fForwardB (fd.fEmbedding.getD idx []) h c).2
                  rest hB.tail j = BEGIN ∨
                labelFromState tanhF sigmoidF fd hunits
                  (compute tanhF sigmoidF hunits fd.fForwardW fd.fForwardU
                    fd.fForwardB (fd.fEmbedding.getD idx []) h c).1
                  (compute tanhF sigmoidF hunits fd.fForwardW fd.fForwardU
                    fd.fForwardB (fd.fEmbedding.getD idx []) h c).2
                  rest hB.tail j = SINGLE) ∧ i0 + 1 + j ≠ 0))
              (List.range rest.length) := by
          refine List.filter_congr ?_
          intro j _
          simp only [Function.comp_apply, Nat.succ_eq_add_one]
          rw [decide_eq_decide, hlabelS j]
          constructor
          · rintro ⟨hl, hn⟩
            exact ⟨hl, by omega⟩
          · rintro ⟨hl, hn⟩
            exact ⟨hl, by omega⟩
        rw [hfil]
        refine (List.map_congr_left ?_).symm
        intro j _
        simp only [Function.comp_apply, Nat.succ_eq_add_one]
        omega
      by_cases hC : (maxIndex (addDotProduct (readVec 4 fd.fOutputB)
          ((compute tanhF sigmoidF hunits fd.fForwardW fd.fForwardU
            fd.fForwardB (fd.fEmbedding.getD idx []) h c).1 ++
            readVec hunits (hB.headD [])) fd.fOutputW) = BEGIN ∨
          maxIndex (addDotProduct (readVec 4 fd.fOutputB)
          ((compute tanhF sigmoidF hunits fd.fForwardW fd.fForwardU
            fd.fForwardB (fd.fEmbedding.getD idx []) h c).1 ++
            readVec hunits (hB.headD [])) fd.fOutputW) = SINGLE) ∧ i0 ≠ 0
      · rw [if_pos hC, if_pos hC, List.map_cons, List.singleton_append,
          List.filter_map, htail]
        simp only [Nat.add_zero]
      · rw [if_neg hC, if_neg hC, List.nil_append, List.filter_map, htail]

/-- The stored backward rows seen by the forward loop coincide with
the per-position backward states. -/
theorem hBackward_getD (fd : LSTMData α) (hunits : ℕ) (idxs : List ℕ)
    {j : ℕ} (hj : j < idxs.length) :
    (backLoop tanhF sigmoidF fd hunits idxs.reverse
        (List.replicate hunits 0) (List.replicate hunits 0)).1.reverse.getD j []
      = bwdStateAt tanhF sigmoidF fd hunits idxs j := by
  have hlen : (backLoop tanhF sigmoidF fd hunits idxs.reverse
      (List.replicate hunits 0) (List.replicate hunits 0)).1.length
        = idxs.length := by
    rw [backLoop_fst_length, List.length_reverse]
  have hj2 : j < (backLoop tanhF sigmoidF fd hunits idxs.reverse
      (List.replicate hunits 0) (List.replicate hunits 0)).1.length := by
    rw [hlen]; exact hj
  rw [getD_reverse _ _ hj2, hlen]
  have hj3 : idxs.length - 1 - j < idxs.reverse.length := by
    rw [List.length_reverse]; omega
  rw [backLoop_fst_getD _ _ _ _ _ _ _ _ hj3]
  have harg : idxs.length - 1 - j + 1 = idxs.length - j := by omega
  rw [harg]
  rfl

/-- The callback positions of an accepted breakWord call are exactly
the non-initial positions whose decoded label is BEGIN or SINGLE. -/
theorem breakWord_snd_eq (fd : LSTMData α) (text : ℕ → ℕ) (s e : ℕ)
    (hL : e - s ≤ 2048) :
    (breakWord tanhF sigmoidF fd text s e).2 =
      ((List.range (e - s)).filter fun i =>
        decide ((labelAt tanhF sigmoidF fd text s e i = BEGIN ∨
          labelAt tanhF sigmoidF fd text s e i = SINGLE) ∧ i ≠ 0)).map
        fun i => s + i := by
  rw [breakWord_of_le tanhF sigmoidF fd text s e hL]
  simp only
  rw [backLoop_clear_eq_fresh]
  rw [fwdLoop_spec]
  have hlen : (indicesOf fd text s e).length = e - s := by
    simp [indicesOf]
  rw [hlen]
  have hfil : ∀ j ∈ List.range (e - s),
      (decide ((labelFromState tanhF sigmoidF fd fd.fForwardU.length
          (List.replicate fd.fForwardU.length 0)
          (List.replicate fd.fForwardU.length 0)
          (indicesOf fd text s e)
          (backLoop tanhF sigmoidF fd fd.fForwardU.length
            (indicesOf fd text s e).reverse
            (List.replicate fd.fForwardU.length 0)
            (List.replicate fd.fForwardU.length 0)).1.reverse j = BEGIN ∨
        labelFromState tanhF sigmoidF fd fd.fForwardU.length
          (List.replicate fd.fForwardU.length 0)
          (List.replicate fd.fForwardU.length 0)
          (indicesOf fd text s e)
          (backLoop tanhF sigmoidF fd fd.fForwardU.length
            (indicesOf fd text s e).reverse
            (List.replicate fd.fForwardU.length 0)
            (List.replicate fd.fForwardU.length 0)).1.reverse j = SINGLE)
          ∧ 0 + j ≠ 0)) =
      decide ((labelAt tanhF sigmoidF fd text s e j = BEGIN ∨
        labelAt tanhF sigmoidF fd text s e j = SINGLE) ∧ j ≠ 0) := by
    intro j hj
    have hjlt : j < (indicesOf fd text s e).length := by
      rw [hlen]
      exact List.mem_range.mp hj
    rw [decide_eq_decide]
    have hlab : labelFromState tanhF sigmoidF fd fd.fForwardU.length
        (List.replicate fd.fForwardU.length 0)
        (List.replicate fd.fForwardU.length 0)
        (indicesOf fd text s e)
        (backLoop tanhF sigmoidF fd fd.fForwardU.length
          (indicesOf fd text s e).reverse
          (List.replicate fd.fForwardU.length 0)
          (List.replicate fd.fForwardU.length 0)).1.reverse j =
        labelAt tanhF sigmoidF fd text s e j := by
      unfold labelFromState labelAt logitsAt fwdStateAt
      rw [hBackward_getD tanhF sigmoidF fd fd.fForwardU.length
        (indicesOf fd text s e) hjlt]
    rw [hlab]
    constructor
    · rintro ⟨hl, hn⟩
      exact ⟨hl, by omega⟩
    · rintro ⟨hl, hn⟩
      exact ⟨hl, by omega⟩
  rw [List.filter_congr hfil]
  refine List.map_congr_left ?_
  intro j _
  omega

/-- Structural bounds on the fused forward loop output: every emitted
position is the start plus a nonzero counter value in range. -/
theorem fwdLoop_mem (fd : LSTMData α) (hunits s : ℕ) :
    ∀ (idxs : List ℕ) (hB : List (List α)) (h c : List α) (i0 : ℕ),
      ∀ p ∈ fwdLoop tanhF sigmoidF fd hunits s idxs hB h c i0,
        ∃ i, p = s + i ∧ i ≠ 0 ∧ i0 ≤ i ∧ i < i0 + idxs.length := by
  intro idxs
  induction idxs with
  | nil =>
      intro hB h c i0 p hp
      exact absurd hp (by simp [fwdLoop])
  | cons idx rest ih =>
      intro hB h c i0 p hp
      simp only [fwdLoop, List.mem_append] at hp
      rcases hp with hp | hp
      · by_cases hcond : (maxIndex (addDotProduct (readVec 4 fd.fOutputB)
            ((compute tanhF sigmoidF hunits fd.fForwardW fd.fForwardU
              fd.fForwardB (fd.fEmbedding.getD idx []) h c).1 ++
              readVec hunits (hB.headD [])) fd.fOutputW) = BEGIN ∨
            maxIndex (addDotProduct (readVec 4 fd.fOutputB)
            ((compute tanhF sigmoidF hunits fd.fForwardW fd.fForwardU
              fd.fForwardB (fd.fEmbedding.getD idx []) h c).1 ++
              readVec hunits (hB.headD [])) fd.fOutputW) = SINGLE) ∧ i0 ≠ 0
        · rw [if_pos hcond] at hp
          refine ⟨i0, ?_, hcond.2, le_rfl, by simp⟩
          simpa using hp
        · rw [if_neg hcond] at hp
          exact absurd hp (by simp)
      · obtain ⟨i, hip, hi0, hge, hlt⟩ := ih hB.tail _ _ (i0 + 1) p hp
        refine ⟨i, hip, hi0, by omega, ?_⟩
        simp only [List.length_cons]
        omega

/-- The fused forward loop emits positions in strictly increasing
order. -/
theorem fwdLoop_sorted (fd : LSTMData α) (hunits s : ℕ) :
    ∀ (idxs : List ℕ) (hB : List (List α)) (h c : List α) (i0 : ℕ),
      List.Sorted (· < ·)
        (fwdLoop tanhF sigmoidF fd hunits s idxs hB h c i0) := by
  intro idxs
  induction idxs with
  | nil =>
      intro hB h c i0
      simp [fwdLoop, List.Sorted]
  | cons idx rest ih =>
      intro hB h c i0
      simp only [fwdLoop]
      by_cases hcond : (maxIndex (addDotProduct (readVec 4 fd.fOutputB)
          ((compute tanhF sigmoidF hunits fd.fForwardW fd.fForwardU
            fd.fForwardB (fd.fEmbedding.getD idx []) h c).1 ++
            readVec hunits (hB.headD [])) fd.fOutputW) = BEGIN ∨
          maxIndex (addDotProduct (readVec 4 fd.fOutputB)
          ((compute tanhF sigmoidF hunits fd.fForwardW fd.fForwardU
            fd.fForwardB (fd.fEmbedding.getD idx []) h c).1 ++
            readVec hunits (hB.headD [])) fd.fOutputW) = SINGLE) ∧ i0 ≠ 0
      · rw [if_pos hcond, List.singleton_append, List.sorted_cons]
        refine ⟨?_, ih hB.tail _ _ (i0 + 1)⟩
        intro b hb
        obtain ⟨i, hip, _, hge, _⟩ := fwdLoop_mem tanhF sigmoidF fd hunits s
          rest hB.tail _ _ (i0 + 1) b hb
        omega
      · rw [if_neg hcond, List.nil_append]
        exact ih hB.tail _ _ (i0 + 1)

/-- Every callback position of a breakWord call lies strictly between
the range ends. -/
theorem breakWord_mem_bounds (fd : LSTMData α) (text : ℕ → ℕ) (s e : ℕ) :
    ∀ p ∈ (breakWord tanhF sigmoidF fd text s e).2, s < p ∧ p < e := by
  intro p hp
  by_cases hL : 2048 < e - s
  · rw [breakWord_of_gt tanhF sigmoidF fd text s e hL] at hp
    exact absurd hp (by simp)
  · rw [breakWord_of_le tanhF sigmoidF fd text s e (by omega)] at hp
    simp only at hp
    obtain ⟨i, hip, hi0, _, hlt⟩ := fwdLoop_mem tanhF sigmoidF fd
      fd.fForwardU.length s _ _ _ _ 0 p hp
    have hlen : (indicesOf fd text s e).length = e - s := by
      simp [indicesOf]
    rw [hlen] at hlt
    subst hip
    omega

/-- The callback positions of a breakWord call are strictly
increasing. -/
theorem breakWord_sorted (fd : LSTMData α) (text : ℕ → ℕ) (s e : ℕ) :
    List.Sorted (· < ·) (breakWord tanhF sigmoidF fd text s e).2 := by
  by_cases hL : 2048 < e - s
  · rw [breakWord_of_gt tanhF sigmoidF fd text s e hL]
    simp [List.Sorted]
  · rw [breakWord_of_le tanhF sigmoidF fd text s e (by omega)]
    exact fwdLoop_sorted tanhF sigmoidF fd fd.fForwardU.length s _ _ _ _ 0

/-! ### Dispatcher: chunks, invocations, breaks -/

theorem linked_le : ∀ (L : List (SALang × ℕ × ℕ)) (s e : ℕ),
    linked s e L → s ≤ e := by
  intro L
  induction L with
  | nil =>
      intro s e h
      exact le_of_eq h
  | cons c rest ih =>
      intro s e h
      obtain ⟨h1, h2, h3⟩ := h
      have := ih _ _ h3
      omega

theorem linked_mem : ∀ (L : List (SALang × ℕ × ℕ)) (s e : ℕ),
    linked s e L → ∀ c ∈ L, s ≤ c.2.1 ∧ c.2.1 < c.2.2 ∧ c.2.2 ≤ e := by
  intro L
  induction L with
  | nil =>
      intro s e _ c hc
      exact absurd hc (by simp)
  | cons d rest ih =>
      intro s e h c hc
      obtain ⟨h1, h2, h3⟩ := h
      rcases List.mem_cons.mp hc with rfl | hc
      · exact ⟨le_of_eq h1.symm, h2, linked_le rest _ _ h3⟩
      · obtain ⟨ha, hb, hcc⟩ := ih _ _ h3 c hc
        omega

theorem saChunks_linked (text : ℕ → ℕ) :
    ∀ (n pos cs : ℕ) (lang : SALang), cs ≤ pos →
      linked cs (pos + n) (saChunks text n pos cs lang) := by
  intro n
  induction n with
  | zero =>
      intro pos cs lang hle
      by_cases hcs : cs ≠ pos
      · simp only [saChunks, if_pos hcs]
        exact ⟨rfl, by show cs < pos; omega, rfl⟩
      · simp only [saChunks, if_neg hcs]
        simpa [linked] using by omega
  | succ n ih =>
      intro pos cs lang hle
      by_cases htr : classify_language (text pos) ≠ lang
      · simp only [saChunks, if_pos htr]
        have hrec := ih (pos + 1) pos (classify_language (text pos)) (by omega)
        rw [show pos + 1 + n = pos + (n + 1) from by omega] at hrec
        by_cases hcs : cs ≠ pos
        · rw [if_pos hcs, List.singleton_append]
          exact ⟨rfl, by show cs < pos; omega, hrec⟩
        · rw [if_neg hcs, List.nil_append]
          have : cs = pos := by omega
          rw [this]
          exact hrec
      · simp only [saChunks, if_neg htr]
        have hrec := ih (pos + 1) cs lang (by omega)
        rwa [show pos + 1 + n = pos + (n + 1) from by omega] at hrec

theorem saChunks_homog (text : ℕ → ℕ) :
    ∀ (n pos cs : ℕ) (lang : SALang),
      (∀ p, cs ≤ p → p < pos → classify_language (text p) = lang) →
      ∀ c ∈ saChunks text n pos cs lang,
        ∀ p, c.2.1 ≤ p → p < c.2.2 → classify_language (text p) = c.1 := by
  intro n
  induction n with
  | zero =>
      intro pos cs lang hinv c hc p hp1 hp2
      by_cases hcs : cs ≠ pos
      · simp only [saChunks, if_pos hcs, List.mem_singleton] at hc
        subst hc
        exact hinv p hp1 hp2
      · simp only [saChunks, if_neg hcs] at hc
        exact absurd hc (by simp)
  | succ n ih =>
      intro pos cs lang hinv c hc p hp1 hp2
      by_cases htr : classify_language (text pos) ≠ lang
      · simp only [saChunks, if_pos htr, List.mem_append] at hc
        rcases hc with hc | hc
        · by_cases hcs : cs ≠ pos
          · rw [if_pos hcs] at hc
            simp only [List.mem_singleton] at hc
            subst hc
            exact hinv p hp1 hp2
          · rw [if_neg hcs] at hc
            exact absurd hc (by simp)
        · refine ih (pos + 1) pos (classify_language (text pos)) ?_ c hc p hp1 hp2
          intro q hq1 hq2
          have : q = pos := by omega
          rw [this]
      · simp only [saChunks, if_neg htr] at hc
        refine ih (pos + 1) cs lang ?_ c hc p hp1 hp2
        intro q hq1 hq2
        rcases Nat.lt_succ_iff_lt_or_eq.mp hq2 with hq | hq
        · exact hinv q hq1 hq
        · rw [hq]
          exact not_not.mp (by simpa using htr)

theorem saChunks_maximal (text : ℕ → ℕ) :
    ∀ (n pos cs : ℕ) (lang : SALang),
      ∀ c ∈ saChunks text n pos cs lang,
        c.2.2 < pos + n → classify_language (text c.2.2) ≠ c.1 := by
  intro n
  induction n with
  | zero =>
      intro pos cs lang c hc hlt
      by_cases hcs : cs ≠ pos
      · simp only [saChunks, if_pos hcs, List.mem_singleton] at hc
        subst hc
        exact absurd hlt (by simp)
      · simp only [saChunks, if_neg hcs] at hc
        exact absurd hc (by simp)
  | succ n ih =>
      intro pos cs lang c hc hlt
      by_cases htr : classify_language (text pos) ≠ lang
      · simp only [saChunks, if_pos htr, List.mem_append] at hc
        rcases hc with hc | hc
        · by_cases hcs : cs ≠ pos
          · rw [if_pos hcs] at hc
            simp only [List.mem_singleton] at hc
            subst hc
            exact htr
          · rw [if_neg hcs] at hc
            exact absurd hc (by simp)
        · exact ih (pos + 1) pos (classify_language (text pos)) c hc (by omega)
      · simp only [saChunks, if_neg htr] at hc
        exact ih (pos + 1) cs lang c hc (by omega)

theorem saLoop_snd_eq_filter (eng : SALang → LSTMData α) (text : ℕ → ℕ) :
    ∀ (n pos cs : ℕ) (lang : SALang), cs ≤ pos → (cs = pos → lang = UNK) →
      (saLoop tanhF sigmoidF eng text n pos cs lang).2 =
        (saChunks text n pos cs lang).filter fun c => decide (c.1 ≠ UNK) := by
  intro n
  induction n with
  | zero =>
      intro pos cs lang hle hdeg
      by_cases hcs : cs ≠ pos
      · simp only [saLoop, saChunks, if_pos hcs]
        by_cases hu : lang ≠ UNK
        · rw [if_pos ⟨hcs, hu⟩]
          simp [hu]
        · rw [if_neg (by tauto)]
          simp only [List.filter_cons]
          rw [decide_eq_false (by tauto)]
          rfl
      · simp only [saLoop, saChunks, if_neg hcs]
        rw [if_neg (by tauto)]
        rfl
  | succ n ih =>
      intro pos cs lang hle hdeg
      by_cases htr : classify_language (text pos) ≠ lang
      · simp only [saLoop, saChunks, if_pos htr]
        rw [List.filter_append]
        have hrec := ih (pos + 1) pos (classify_language (text pos))
          (by omega) (by omega)
        rw [hrec]
        by_cases hcs : cs ≠ pos
        · rw [if_pos hcs]
          by_cases hu : lang ≠ UNK
          · rw [if_pos hu]
            simp [hu]
          · rw [if_neg hu]
            simp only [List.filter_cons]
            rw [decide_eq_false (by tauto)]
            rfl
        · rw [if_neg hcs]
          have hlangu : lang = UNK := hdeg (by omega)
          rw [if_neg (by simp [hlangu])]
          rfl
      · simp only [saLoop, saChunks, if_neg htr]
        exact ih (pos + 1) cs lang (by omega) (by omega)

theorem saLoop_fst_bounds (eng : SALang → LSTMData α) (text : ℕ → ℕ) :
    ∀ (n pos cs : ℕ) (lang : SALang), cs ≤ pos →
      ∀ p ∈ (saLoop tanhF sigmoidF eng text n pos cs lang).1,
        cs < p ∧ p < pos + n := by
  intro n
  induction n with
  | zero =>
      intro pos cs lang hle p hp
      by_cases hfl : cs ≠ pos ∧ lang ≠ UNK
      · simp only [saLoop, if_pos hfl] at hp
        have := breakWord_mem_bounds tanhF sigmoidF (eng lang) text cs pos p hp
        omega
      · simp only [saLoop, if_neg hfl] at hp
        exact absurd hp (by simp)
  | succ n ih =>
      intro pos cs lang hle p hp
      by_cases htr : classify_language (text pos) ≠ lang
      · simp only [saLoop, if_pos htr, List.mem_append] at hp
        rcases hp with hp | hp
        · by_cases hu : lang ≠ UNK
          · rw [if_pos hu] at hp
            have := breakWord_mem_bounds tanhF sigmoidF (eng lang) text
              cs pos p hp
            omega
          · rw [if_neg hu] at hp
            exact absurd hp (by simp)
        · have := ih (pos + 1) pos (classify_language (text pos))
            (by omega) p hp
          omega
      · simp only [saLoop, if_neg htr] at hp
        have := ih (pos + 1) cs lang (by omega) p hp
        omega

theorem saLoop_fst_sorted (eng : SALang → LSTMData α) (text : ℕ → ℕ) :
    ∀ (n pos cs : ℕ) (lang : SALang), cs ≤ pos →
      List.Sorted (· < ·) (saLoop tanhF sigmoidF eng text n pos cs lang).1 := by
  intro n
  induction n with
  | zero =>
      intro pos cs lang hle
      by_cases hfl : cs ≠ pos ∧ lang ≠ UNK
      · simp only [saLoop, if_pos hfl]
        exact breakWord_sorted tanhF sigmoidF (eng lang) text cs pos
      · simp only [saLoop, if_neg hfl]
        simp [List.Sorted]
  | succ n ih =>
      intro pos cs lang hle
      by_cases htr : classify_language (text pos) ≠ lang
      · simp only [saLoop, if_pos htr]
        rw [List.Sorted, List.pairwise_append]
        refine ⟨?_, ih (pos + 1) pos (classify_language (text pos)) (by omega),
          ?_⟩
        · by_cases hu : lang ≠ UNK
          · rw [if_pos hu]
            exact breakWord_sorted tanhF sigmoidF (eng lang) text cs pos
          · rw [if_neg hu]
            simp
        · intro a ha b hb
          have hb2 := saLoop_fst_bounds tanhF sigmoidF eng text n (pos + 1)
            pos (classify_language (text pos)) (by omega) b hb
          by_cases hu : lang ≠ UNK
          · rw [if_pos hu] at ha
            have ha2 := breakWord_mem_bounds tanhF sigmoidF (eng lang) text
              cs pos a ha
            omega
          · rw [if_neg hu] at ha
            exact absurd ha (by simp)
      · simp only [saLoop, if_neg htr]
        exact ih (pos + 1) cs lang (by omega)

theorem saLoop_fst_join (eng : SALang → LSTMData α) (text : ℕ → ℕ) :
    ∀ (n pos cs : ℕ) (lang : SALang),
      (saLoop tanhF sigmoidF eng text n pos cs lang).1 =
        List.flatten (((saLoop tanhF sigmoidF eng text n pos cs lang).2).map
          fun c => (breakWord tanhF sigmoidF (eng c.1) text c.2.1 c.2.2).2) := by
  intro n
  induction n with
  | zero =>
      intro pos cs lang
      by_cases hfl : cs ≠ pos ∧ lang ≠ UNK
      · simp only [saLoop, if_pos hfl]
        simp
      · simp only [saLoop, if_neg hfl]
        rfl
  | succ n ih =>
      intro pos cs lang
      by_cases htr : classify_language (text pos) ≠ lang
      · simp only [saLoop, if_pos htr]
        rw [List.map_append, List.flatten_append]
        rw [← ih (pos + 1) pos (classify_language (text pos))]
        by_cases hu : lang ≠ UNK
        · rw [if_pos hu, if_pos hu]
          simp
        · rw [if_neg hu, if_neg hu]
          rfl
      · simp only [saLoop, if_neg htr]
        exact ih (pos + 1) cs lang

/-! ### Claim theorems -/

/-- Claim C9: script classification is a pure function of the single
code point, with THAI, LAO, BURMESE and KHMER each characterised by
its half-open interval and UNK exactly on everything else. -/
theorem claim_C9 (ch : ℕ) :
    (classify_language ch = THAI ↔ 0x0E00 ≤ ch ∧ ch < 0x0E80) ∧
    (classify_language ch = LAO ↔ 0x0E80 ≤ ch ∧ ch < 0x0F00) ∧
    (classify_language ch = BURMESE ↔ 0x1000 ≤ ch ∧ ch < 0x10A0) ∧
    (classify_language ch = KHMER ↔ 0x1780 ≤ ch ∧ ch < 0x1800) ∧
    (classify_language ch = UNK ↔
      ¬(0x0E00 ≤ ch ∧ ch < 0x0E80) ∧ ¬(0x0E80 ≤ ch ∧ ch < 0x0F00) ∧
      ¬(0x1000 ≤ ch ∧ ch < 0x10A0) ∧ ¬(0x1780 ≤ ch ∧ ch < 0x1800)) := by
  unfold classify_language
  split_ifs with h1 h2 h3 h4 <;> simp_all <;> omega

/-- Claim C9 witness: the classification evaluated at the Thai code
point 0x0E01 through the claim theorem. -/
theorem claim_C9_witness : classify_language 0x0E01 = THAI :=
  (claim_C9 0x0E01).1.mpr ⟨by decide, by decide⟩

/-- Claim C8: maxIndex of a non-empty buffer is the index of the
maximum, the lowest index winning on ties; on a four-element buffer of
equal entries it decodes to BEGIN. -/
theorem claim_C8 (l : List α) (hne : l ≠ []) :
    maxIndex l < l.length ∧
    (∀ k, k < l.length → getE l k ≤ getE l (maxIndex l)) ∧
    (∀ k, k < maxIndex l → getE l k < getE l (maxIndex l)) ∧
    (∀ x : α, maxIndex [x, x, x, x] = BEGIN) := by
  obtain ⟨h1, h2, h3⟩ := maxIndex_spec l hne
  refine ⟨h1, h2, h3, ?_⟩
  intro x
  simp [maxIndex, maxIndexAux, lt_irrefl, BEGIN]

/-- Claim C8 witness: the argmax of a concrete two-element buffer is
in range, through the claim theorem. -/
theorem claim_C8_witness :
    ([(1 : ℚ), 0] ≠ [] ∧ maxIndex [(1 : ℚ), 0] < 2) :=
  ⟨by decide, by simpa using (claim_C8 [(1 : ℚ), 0] (by decide)).1⟩

/-- Claim C6: one call to compute performs exactly one forget-gated
LSTM timestep, with sigmoid on the i, f and o lanes, tanh on the
candidate lane, the cell state updated as c ⊙ F + I ⊙ C-tilde, and
the hidden state tanh(c) ⊙ O read from the updated cell state,
matching the reference equations. -/
theorem claim_C6 (hunits : ℕ) (W U : List (List α)) (b x h c : List α)
    (hh : h.length = hunits) (hc : c.length = hunits) :
    compute tanhF sigmoidF hunits W U b x h c =
      (lstmRefH tanhF sigmoidF hunits W U b x h c,
        lstmRefC tanhF sigmoidF hunits W U b x h c) :=
  compute_eq_lstmRef tanhF sigmoidF hunits W U b x h c hh hc

/-- Claim C6 witness: the step evaluated on a concrete one-unit cell
through the claim theorem. -/
theorem claim_C6_witness :
    ([(0 : ℚ)].length = 1 ∧
      compute (id : ℚ → ℚ) id 1 [[1, 2, 3, 4]] [[0, 0, 0, 0]]
          [1, 1, 1, 1] [1] [0] [2] =
        (lstmRefH (id : ℚ → ℚ) id 1 [[1, 2, 3, 4]] [[0, 0, 0, 0]]
            [1, 1, 1, 1] [1] [0] [2],
          lstmRefC (id : ℚ → ℚ) id 1 [[1, 2, 3, 4]] [[0, 0, 0, 0]]
            [1, 1, 1, 1] [1] [0] [2])) :=
  ⟨rfl, claim_C6 id id 1 [[1, 2, 3, 4]] [[0, 0, 0, 0]] [1, 1, 1, 1]
    [1] [0] [2] rfl rfl⟩

/-- Claim C7: reusing the single cell-state buffer across the backward
and forward passes, re-zeroed in between, is behaviourally identical
to using two separate zero-filled cell-state buffers: return value and
emitted callback sequence agree for every model and input. -/
theorem claim_C7 (fd : LSTMData α) (text : ℕ → ℕ) (s e : ℕ) :
    breakWord tanhF sigmoidF fd text s e =
      breakWordTwoBuffers tanhF sigmoidF fd text s e := by
  by_cases hL : 2048 < e - s
  · rw [breakWord_of_gt tanhF sigmoidF fd text s e hL]
    unfold breakWordTwoBuffers
    rw [if_pos hL]
  · rw [breakWord_of_le tanhF sigmoidF fd text s e (by omega)]
    unfold breakWordTwoBuffers
    rw [if_neg hL]
    rw [backLoop_clear_eq_fresh]
    rfl

/-- Claim C2: a breakWord call returns nonzero exactly when the range
length exceeds 2048, and a nonzero return fires no callbacks. -/
theorem claim_C2 (fd : LSTMData α) (text : ℕ → ℕ) (s e : ℕ) :
    ((breakWord tanhF sigmoidF fd text s e).1 ≠ 0 ↔ 2048 < e - s) ∧
    (2048 < e - s → (breakWord tanhF sigmoidF fd text s e).2 = []) := by
  by_cases hL : 2048 < e - s
  · rw [breakWord_of_gt tanhF sigmoidF fd text s e hL]
    constructor
    · simp [hL]
    · intro _
      rfl
  · rw [breakWord_of_le tanhF sigmoidF fd text s e (by omega)]
    constructor
    · simp [hL]
    · intro h
      exact absurd h hL

/-- Claim C2 witness: length 2049 is rejected with no callbacks and
length 2048 is accepted, through the claim theorem. -/
theorem claim_C2_witness :
    (breakWord (id : ℚ → ℚ) id zeroData (fun _ => 0x0E01) 0 2049).1 ≠ 0 ∧
    (breakWord (id : ℚ → ℚ) id zeroData (fun _ => 0x0E01) 0 2049).2 = [] ∧
    (breakWord (id : ℚ → ℚ) id zeroData (fun _ => 0x0E01) 0 2048).1 = 0 :=
  ⟨(claim_C2 id id zeroData (fun _ => 0x0E01) 0 2049).1.mpr (by decide),
    (claim_C2 id id zeroData (fun _ => 0x0E01) 0 2049).2 (by decide),
    not_not.mp
      (mt (claim_C2 id id zeroData (fun _ => 0x0E01) 0 2048).1.mp
        (by decide))⟩

/-- Claim C4: a successful breakWord call fires the callback exactly
at the positions start + i, i nonzero and below the length, whose
decoded BIES label is BEGIN or SINGLE, and never at the chunk start. -/
theorem claim_C4 (fd : LSTMData α) (text : ℕ → ℕ) (s e : ℕ)
    (hL : e - s ≤ 2048) :
    (breakWord tanhF sigmoidF fd text s e).2 =
      ((List.range (e - s)).filter fun i =>
        decide ((labelAt tanhF sigmoidF fd text s e i = BEGIN ∨
          labelAt tanhF sigmoidF fd text s e i = SINGLE) ∧ i ≠ 0)).map
        (fun i => s + i) ∧
    ∀ p ∈ (breakWord tanhF sigmoidF fd text s e).2, p ≠ s := by
  refine ⟨breakWord_snd_eq tanhF sigmoidF fd text s e hL, ?_⟩
  intro p hp
  have := breakWord_mem_bounds tanhF sigmoidF fd text s e p hp
  omega

/-- Claim C4 witness: the callback positions of a concrete three-point
call match the decoded-label filter, through the claim theorem. -/
theorem claim_C4_witness :
    (3 : ℕ) - 0 ≤ 2048 ∧
    (breakWord (id : ℚ → ℚ) id zeroData (fun _ => 0x0E01) 0 3).2 =
      ((List.range (3 - 0)).filter fun i =>
        decide ((labelAt (id : ℚ → ℚ) id zeroData (fun _ => 0x0E01) 0 3 i
            = BEGIN ∨
          labelAt (id : ℚ → ℚ) id zeroData (fun _ => 0x0E01) 0 3 i
            = SINGLE) ∧ i ≠ 0)).map (fun i => 0 + i) :=
  ⟨by decide,
    (claim_C4 id id zeroData (fun _ => 0x0E01) 0 3 (by decide)).1⟩

/-- Claim C5: within one BreakSALine call the callback positions are
strictly increasing, lie between rangeStart + 1 and rangeEnd - 1, and
decompose chunk by chunk in source order. -/
theorem claim_C5 (eng : SALang → LSTMData α) (text : ℕ → ℕ) (s e : ℕ)
    (hse : s ≤ e) :
    List.Sorted (· < ·) (BreakSALine tanhF sigmoidF eng text s e).2 ∧
    (∀ p ∈ (BreakSALine tanhF sigmoidF eng text s e).2,
      s + 1 ≤ p ∧ p ≤ e - 1) ∧
    (BreakSALine tanhF sigmoidF eng text s e).2 =
      List.flatten ((saInvocations tanhF sigmoidF eng text s e).map
        fun c => (breakWord tanhF sigmoidF (eng c.1) text c.2.1 c.2.2).2) := by
  refine ⟨saLoop_fst_sorted tanhF sigmoidF eng text (e - s) s s UNK le_rfl,
    ?_, saLoop_fst_join tanhF sigmoidF eng text (e - s) s s UNK⟩
  intro p hp
  have := saLoop_fst_bounds tanhF sigmoidF eng text (e - s) s s UNK
    le_rfl p hp
  omega

/-- Claim C5 witness: the callback positions of a concrete mixed call
are sorted, through the claim theorem. -/
theorem claim_C5_witness :
    (0 : ℕ) ≤ 3 ∧
    List.Sorted (· < ·)
      (BreakSALine (id : ℚ → ℚ) id (fun _ => zeroData)
        (fun _ => 0x0E01) 0 3).2 :=
  ⟨by decide,
    (claim_C5 id id (fun _ => zeroData) (fun _ => 0x0E01) 0 3
      (by decide)).1⟩

/-- Claim C3: the dispatcher chunks partition the range exactly, each
chunk is script-homogeneous, exactly the non-UNK chunks are handed to
engines, and every break lies strictly inside a non-UNK chunk. -/
theorem claim_C3 (eng : SALang → LSTMData α) (text : ℕ → ℕ) (s e : ℕ)
    (hse : s ≤ e) :
    linked s e (saChunksOf text s e) ∧
    (∀ c ∈ saChunksOf text s e, ∀ p, c.2.1 ≤ p → p < c.2.2 →
      classify_language (text p) = c.1) ∧
    saInvocations tanhF sigmoidF eng text s e =
      (saChunksOf text s e).filter (fun c => decide (c.1 ≠ UNK)) ∧
    ∀ p ∈ (BreakSALine tanhF sigmoidF eng text s e).2,
      ∃ c ∈ saChunksOf text s e, c.1 ≠ UNK ∧ c.2.1 < p ∧ p < c.2.2 := by
  have hfil := saLoop_snd_eq_filter tanhF sigmoidF eng text (e - s) s s UNK
    le_rfl (fun _ => rfl)
  refine ⟨?_, ?_, hfil, ?_⟩
  · have := saChunks_linked text (e - s) s s UNK le_rfl
    rwa [show s + (e - s) = e from by omega] at this
  · exact saChunks_homog text (e - s) s s UNK (by intro q h1 h2; omega)
  · intro p hp
    have hjoin := saLoop_fst_join tanhF sigmoidF eng text (e - s) s s UNK
    rw [show (BreakSALine tanhF sigmoidF eng text s e).2 =
      (saLoop tanhF sigmoidF eng text (e - s) s s UNK).1 from rfl,
      hjoin] at hp
    obtain ⟨l, hl, hpl⟩ := List.mem_flatten.mp hp
    obtain ⟨c, hcinv, hfc⟩ := List.mem_map.mp hl
    subst hfc
    have hcchunks := hfil ▸ hcinv
    have hcmem := (List.mem_filter.mp hcchunks).1
    have hcUNK : c.1 ≠ UNK := by
      simpa using (List.mem_filter.mp hcchunks).2
    have hb := breakWord_mem_bounds tanhF sigmoidF (eng c.1) text
      c.2.1 c.2.2 p hpl
    exact ⟨c, hcmem, hcUNK, hb.1, hb.2⟩

/-- Claim C3 witness: the chunks of a concrete Thai-only range link up
exactly, through the claim theorem. -/
theorem claim_C3_witness :
    (0 : ℕ) ≤ 3 ∧ linked 0 3 (saChunksOf (fun _ => 0x0E01) 0 3) :=
  ⟨by decide,
    (claim_C3 (id : ℚ → ℚ) id (fun _ => zeroData) (fun _ => 0x0E01) 0 3
      (by decide)).1⟩

/-- Claim C10: every engine invocation the dispatcher makes is on a
non-empty chunk of a single non-UNK script, and the code point just
past the chunk (when inside the range) is of a different script. -/
theorem claim_C10 (eng : SALang → LSTMData α) (text : ℕ → ℕ) (s e : ℕ)
    (hse : s ≤ e) :
    ∀ inv ∈ saInvocations tanhF sigmoidF eng text s e,
      inv.2.1 < inv.2.2 ∧ inv.1 ≠ UNK ∧
      (∀ p, inv.2.1 ≤ p → p < inv.2.2 →
        classify_language (text p) = inv.1) ∧
      (inv.2.2 < e → classify_language (text inv.2.2) ≠ inv.1) := by
  intro inv hinv
  have hfil := saLoop_snd_eq_filter tanhF sigmoidF eng text (e - s) s s UNK
    le_rfl (fun _ => rfl)
  have hinv2 : inv ∈ (saChunksOf text s e).filter
      (fun c => decide (c.1 ≠ UNK)) := hfil ▸ hinv
  have hmem := (List.mem_filter.mp hinv2).1
  have hUNK : inv.1 ≠ UNK := by
    simpa using (List.mem_filter.mp hinv2).2
  have hlink := saChunks_linked text (e - s) s s UNK le_rfl
  have hbounds := linked_mem _ _ _ hlink inv hmem
  refine ⟨hbounds.2.1, hUNK, ?_, ?_⟩
  · exact saChunks_homog text (e - s) s s UNK
      (by intro q h1 h2; omega) inv hmem
  · intro hlt
    exact saChunks_maximal text (e - s) s s UNK inv hmem (by omega)

/-- Claim C10 witness: the single invocation of a concrete Thai-only
range is on a non-empty chunk, through the claim theorem. -/
theorem claim_C10_witness :
    (0 : ℕ) ≤ 3 ∧
    (THAI, 0, 3) ∈ saInvocations (id : ℚ → ℚ) id (fun _ => zeroData)
      (fun _ => 0x0E01) 0 3 ∧
    (0 : ℕ) < 3 :=
  ⟨by decide, by decide,
    (claim_C10 id id (fun _ => zeroData) (fun _ => 0x0E01) 0 3
      (by decide) (THAI, 0, 3) (by decide)).1⟩

set_option maxRecDepth 10000 in
/-- Claim C1 counterexample: on 2049 Thai code points followed by one
Lao code point, the first engine invocation returns nonzero, yet
BreakSALine still makes the later invocation and returns 0 instead of
propagating the engine error. -/
theorem claim_C1_counterexample :
    (breakWord (id : ℚ → ℚ) id zeroData cexText 0 2049).1 ≠ 0 ∧
    saInvocations (id : ℚ → ℚ) id (fun _ => zeroData) cexText 0 2050 =
      [(THAI, 0, 2049), (LAO, 2049, 2050)] ∧
    (BreakSALine (id : ℚ → ℚ) id (fun _ => zeroData) cexText 0 2050).1
      = 0 :=
  ⟨by decide, by decide, by decide⟩

/-- Claim C1 as amended: BreakSALine always returns 0 and discards
every engine return value; all non-UNK chunks are still handed to
their engines even when an earlier invocation failed. -/
theorem claim_C1_amended (eng : SALang → LSTMData α) (text : ℕ → ℕ)
    (s e : ℕ) :
    (BreakSALine tanhF sigmoidF eng text s e).1 = 0 ∧
    saInvocations tanhF sigmoidF eng text s e =
      (saChunksOf text s e).filter fun c => decide (c.1 ≠ UNK) :=
  ⟨rfl, saLoop_snd_eq_filter tanhF sigmoidF eng text (e - s) s s UNK
    le_rfl (fun _ => rfl)⟩

end CrLB
